/-
Verification of `heapless_topo` (src/lib.rs): a `no_std` topological sort
over a fixed-capacity edge list, using Kahn's algorithm.

The Rust code is shallowly embedded:
* `heapless::Vec<T, N>` becomes a plain `List` together with explicit
  capacity checks (`push` fails when the length has reached `N`).
* `heapless::FnvIndexSet<usize, N>` keeps its entries in insertion order
  and removes by swap-remove (the last entry is moved into the hole), so it
  is embedded as a duplicate-free `List Nat` with `setInsert` / `setRemove`
  mirroring those semantics exactly; `first()` is the head of the list.
* Node identifiers (`usize`) are embedded as `Nat`; they are only ever
  compared for equality, so no modular arithmetic is needed.
* The main loop of `into_topo_sorted` is embedded with explicit fuel
  (`topoLoop`); fuel exhaustion yields `none`, and we prove that the fuel
  actually supplied by `into_topo_sorted` always suffices.
* The panics the Rust code argues away in comments (`resize_default(EDGES)`
  on a fresh flag buffer, the flag-buffer iterator consumed by `retain`)
  are embedded as `Option`-returning operations (`resize_default`,
  `retainUnflagged`); `none` models a panic, and we prove it cannot occur.
-/
import Mathlib

namespace HeaplessTopo

/-- `Error` from src/lib.rs: `Cycle` or `OverCapacity`. -/
inductive Error where
  | Cycle
  | OverCapacity
deriving DecidableEq, Repr

/-- Graph edge: an ordered pair of node identifiers (src/lib.rs `Edge`). -/
structure Edge where
  «from» : Nat
  «to» : Nat
deriving DecidableEq, Repr

instance : DecidableEq (Except Error (List Nat)) := fun a b =>
  match a, b with
  | Except.ok x, Except.ok y =>
      if h : x = y then isTrue (by rw [h]) else isFalse (fun hc => h (Except.ok.inj hc))
  | Except.ok _, Except.error _ => isFalse (fun hc => Except.noConfusion hc)
  | Except.error _, Except.ok _ => isFalse (fun hc => Except.noConfusion hc)
  | Except.error x, Except.error y =>
      if h : x = y then isTrue (by rw [h]) else isFalse (fun hc => h (Except.error.inj hc))

/-- All node identifiers appearing in an edge list (with repetitions). -/
def nodesOf (edges : List Edge) : List Nat :=
  edges.flatMap (fun e => [e.«from», e.«to»])

/-- `FnvIndexSet::insert`: a no-op on a present element, an append on a fresh
element while fewer than `C` entries are stored, and `OverCapacity` otherwise. -/
def setInsert (C : Nat) (s : List Nat) (x : Nat) : Except Error (List Nat) :=
  if x ∈ s then Except.ok s
  else if s.length < C then Except.ok (s ++ [x])
  else Except.error Error.OverCapacity

/-- Swap-remove at index `i`: the last entry is moved into the hole and the
final slot is dropped (`heapless` index-map removal). -/
def swapRemoveIdx (l : List Nat) (i : Nat) : List Nat :=
  (l.set i (l.getLast?.getD 0)).dropLast

/-- `FnvIndexSet::remove`: locate the element and swap-remove it; a no-op when
the element is absent. -/
def setRemove (s : List Nat) (x : Nat) : List Nat :=
  if x ∈ s then swapRemoveIdx s (s.indexOf x) else s

/-- src/lib.rs `Graph<EDGES>`: just the edge sequence. -/
structure Graph (C : Nat) where
  edges : List Edge
deriving DecidableEq, Repr

/-- `Graph::new`. -/
def Graph.new (C : Nat) : Graph C := ⟨[]⟩

/-- `Graph::new_with_edges`. -/
def Graph.new_with_edges (C : Nat) (edges : List Edge) : Graph C := ⟨edges⟩

/-- `Graph::insert_edge`: `heapless::Vec::push`, which appends while the vector
holds fewer than `C` elements and fails with `OverCapacity` otherwise, leaving
the vector unchanged.  The returned pair is (result, graph after the call). -/
def insert_edge {C : Nat} (g : Graph C) (e : Edge) : Except Error Unit × Graph C :=
  if g.edges.length < C then (Except.ok (), ⟨g.edges ++ [e]⟩)
  else (Except.error Error.OverCapacity, g)

/-- First seeding pass of `into_topo_sorted`: insert every `from` node into the
starting-node set, propagating `OverCapacity`. -/
def seedFrom (C : Nat) (s : List Nat) (edges : List Edge) : Except Error (List Nat) :=
  match edges with
  | [] => Except.ok s
  | e :: rest =>
    match setInsert C s e.«from» with
    | Except.error err => Except.error err
    | Except.ok s' => seedFrom C s' rest

/-- Second seeding pass: remove from the set every node that occurs as a `to`. -/
def removeTargets (s : List Nat) (edges : List Edge) : List Nat :=
  match edges with
  | [] => s
  | e :: rest =>
    removeTargets (if e.«to» ∈ s then setRemove s e.«to» else s) rest

/-- Inner pass of the main loop over all edges: for each edge leaving `node`,
check whether its target has another remaining incoming edge, and if not,
insert the target into the starting-node set (propagating `OverCapacity`). -/
def updateStarting (C : Nat) (node : Nat) (allEdges : List Edge) (pending : List Edge)
    (s : List Nat) : Except Error (List Nat) :=
  match pending with
  | [] => Except.ok s
  | e :: rest =>
    if e.«from» = node then
      if ∃ ce ∈ allEdges, ce.«to» = e.«to» ∧ ce.«from» ≠ e.«from» then
        updateStarting C node allEdges rest s
      else
        match setInsert C s e.«to» with
        | Except.error err => Except.error err
        | Except.ok s' => updateStarting C node allEdges rest s'
    else updateStarting C node allEdges rest s

/-- `Vec::resize_default` on a freshly created boolean vector of capacity
`cap`: fills with `false` up to `n`, failing (`none` = panic of the `unwrap`)
if `n` exceeds the capacity. -/
def resize_default (cap n : Nat) : Option (List Bool) :=
  if n ≤ cap then some (List.replicate n false) else none

/-- The flag-filling part of the main loop: `starting_edges[idx] = true` for
every edge index whose edge leaves `node` (out-of-range writes cannot occur;
`List.set` mirrors the in-range ones). -/
def fillFlags (node : Nat) (edges : List Edge) (idx : Nat) (flags : List Bool) : List Bool :=
  match edges with
  | [] => flags
  | e :: rest =>
    fillFlags node rest (idx + 1) (if e.«from» = node then flags.set idx true else flags)

/-- `edges.retain(|_| !it.next().unwrap())`: keep the edges whose flag is
`false`, consuming one flag per edge; `none` models the `unwrap` panic when
the flag iterator is exhausted. -/
def retainUnflagged (edges : List Edge) (flags : List Bool) : Option (List Edge) :=
  match edges, flags with
  | [], _ => some []
  | _ :: _, [] => none
  | e :: rest, f :: fs =>
    match retainUnflagged rest fs with
    | none => none
    | some kept => some (if !f then e :: kept else kept)

/-- The main Kahn loop of `into_topo_sorted`, with explicit fuel. `none` means
fuel exhaustion or a modelled panic; both are proved impossible below for the
fuel supplied by `into_topo_sorted`. -/
def topoLoop (C fuel : Nat) (res s : List Nat) (edges : List Edge) :
    Option (Except Error (List Nat)) :=
  match s with
  | [] => some (if edges.isEmpty then Except.ok res else Except.error Error.Cycle)
  | node :: rest =>
    match fuel with
    | 0 => none
    | fuel' + 1 =>
      let s1 := setRemove (node :: rest) node
      if res.length < C then
        match updateStarting C node edges edges s1 with
        | Except.error err => some (Except.error err)
        | Except.ok s2 =>
          match resize_default C C with
          | none => none
          | some flags0 =>
            match retainUnflagged edges (fillFlags node edges 0 flags0) with
            | none => none
            | some edges2 => topoLoop C fuel' (res ++ [node]) s2 edges2
      else some (Except.error Error.OverCapacity)

/-- `Graph::into_topo_sorted`.  The fuel `s1.length + edges.length` is the
termination measure of the Rust `while` loop. -/
def into_topo_sorted {C : Nat} (g : Graph C) : Option (Except Error (List Nat)) :=
  match seedFrom C [] g.edges with
  | Except.error err => some (Except.error err)
  | Except.ok s0 =>
    let s1 := removeTargets s0 g.edges
    topoLoop C (s1.length + g.edges.length) [] s1 g.edges

/-- `a` occurs strictly before `b` in `l`. -/
def Before (l : List Nat) (a b : Nat) : Prop :=
  ∃ l1 l2 l3, l = l1 ++ a :: l2 ++ b :: l3

/-- Consecutive edges are linked head-to-tail: each edge's `to` is the next
edge's `from`. -/
def chainLinked : List Edge → Bool
  | [] => true
  | [_] => true
  | e :: e' :: rest => (e.«to» == e'.«from») && chainLinked (e' :: rest)

/-- `es` is a non-empty cyclic chain of edges drawn from `edges`:
`from → to → ... → from`. -/
def IsCycleChainIn (edges es : List Edge) : Prop :=
  es ≠ [] ∧ (∀ e ∈ es, e ∈ edges) ∧ chainLinked es = true ∧
    ∃ e0 eL, es.head? = some e0 ∧ es.getLast? = some eL ∧ eL.«to» = e0.«from»

/-- The edge list contains a cycle. -/
def HasCycle (edges : List Edge) : Prop :=
  ∃ es, IsCycleChainIn edges es

/-- Iterated choice of an incoming edge: step `k + 1` picks (via `find?`) an
edge whose `to` is the `from` of step `k`.  Used to extract a cycle from an
edge set in which every edge's source has an incoming edge. -/
def predSeq (edges : List Edge) (e0 : Edge) : Nat → Edge
  | 0 => e0
  | k + 1 => (edges.find? (fun p => p.«to» == (predSeq edges e0 k).«from»)).getD e0

/-- `[f top, f (top - 1), ..., f (top - len + 1)]`. -/
def downFrom (f : Nat → Edge) : Nat → Nat → List Edge
  | _, 0 => []
  | top, len + 1 => f top :: downFrom f (top - 1) len

/-- Loop invariant of the main Kahn loop, relating the original edge list `g0`
to the current output `res`, starting-node set `s` and remaining `edges`. -/
structure Inv (C : Nat) (g0 : List Edge) (res s : List Nat) (edges : List Edge) : Prop where
  sub : ∀ e ∈ edges, e ∈ g0
  elen : edges.length ≤ g0.length
  snd : s.Nodup
  rnd : res.Nodup
  rlen : res.length ≤ C
  disj : ∀ x ∈ s, x ∉ res
  smem : ∀ x ∈ s, x ∈ nodesOf g0
  rmem : ∀ x ∈ res, x ∈ nodesOf g0
  noinc : ∀ x ∈ s, ∀ e ∈ edges, e.«to» ≠ x
  rtouch : ∀ x ∈ res, ∀ e ∈ edges, e.«from» ≠ x ∧ e.«to» ≠ x
  cover : ∀ x ∈ nodesOf g0, x ∈ res ∨ x ∈ s ∨ x ∈ nodesOf edges
  live : ∀ e ∈ edges, e.«from» ∈ s ∨ ∃ p ∈ edges, p.«to» = e.«from»
  order : ∀ e ∈ g0, e ∈ edges ∨ (e.«from» ∈ res ∧ e.«to» ∉ res) ∨ Before res e.«from» e.«to»

/-! ### Basic lemmas about the index-set model -/

theorem setInsert_ok_elim {C : Nat} {s s' : List Nat} {x : Nat}
    (h : setInsert C s x = Except.ok s') :
    (x ∈ s ∧ s' = s) ∨ (x ∉ s ∧ s.length < C ∧ s' = s ++ [x]) := by
  unfold setInsert at h
  by_cases hx : x ∈ s
  · rw [if_pos hx] at h
    exact Or.inl ⟨hx, (Except.ok.inj h).symm⟩
  · rw [if_neg hx] at h
    by_cases hl : s.length < C
    · rw [if_pos hl] at h
      exact Or.inr ⟨hx, hl, (Except.ok.inj h).symm⟩
    · rw [if_neg hl] at h
      exact absurd h (by intro hc; exact Except.noConfusion hc)

theorem setInsert_mem {C : Nat} {s s' : List Nat} {x : Nat}
    (h : setInsert C s x = Except.ok s') :
    ∀ y, y ∈ s' ↔ y ∈ s ∨ y = x := by
  intro y
  rcases setInsert_ok_elim h with ⟨hx, rfl⟩ | ⟨_, _, rfl⟩
  · constructor
    · exact fun hy => Or.inl hy
    · rintro (hy | rfl)
      · exact hy
      · exact hx
  · simp

theorem setInsert_nodup {C : Nat} {s s' : List Nat} {x : Nat}
    (h : setInsert C s x = Except.ok s') (hs : s.Nodup) : s'.Nodup := by
  rcases setInsert_ok_elim h with ⟨_, rfl⟩ | ⟨hx, _, rfl⟩
  · exact hs
  · simp only [List.nodup_append]
    refine ⟨hs, by simp, ?_⟩
    intro y hy hyx
    simp only [List.mem_singleton] at hyx
    exact hx (hyx ▸ hy)

theorem setInsert_len {C : Nat} {s s' : List Nat} {x : Nat}
    (h : setInsert C s x = Except.ok s') : s'.length ≤ s.length + 1 := by
  rcases setInsert_ok_elim h with ⟨_, rfl⟩ | ⟨_, _, rfl⟩ <;> simp

theorem setInsert_ok_of {C : Nat} {s : List Nat} {x : Nat}
    (h : x ∈ s ∨ s.length < C) : ∃ s', setInsert C s x = Except.ok s' := by
  unfold setInsert
  by_cases hx : x ∈ s
  · exact ⟨s, by rw [if_pos hx]⟩
  · rcases h with h | h
    · exact absurd h hx
    · exact ⟨s ++ [x], by rw [if_neg hx, if_pos h]⟩

theorem set_append_len {α : Type} (l1 : List α) (a b : α) (l2 : List α) :
    (l1 ++ a :: l2).set l1.length b = l1 ++ b :: l2 := by
  induction l1 with
  | nil => rfl
  | cons h t ih => simp only [List.cons_append, List.length_cons, List.set_cons_succ, ih]

theorem setRemove_of_not_mem {s : List Nat} {x : Nat} (hx : x ∉ s) :
    setRemove s x = s := by
  unfold setRemove
  rw [if_neg hx]

/-- Swap-removal of a present element is, up to permutation, exactly removal
of one occurrence of that element. -/
theorem setRemove_cons_perm {s : List Nat} {x : Nat} (hx : x ∈ s) :
    (x :: setRemove s x).Perm s := by
  unfold setRemove
  rw [if_pos hx]
  have hi : s.indexOf x < s.length := List.indexOf_lt_length.2 hx
  obtain ⟨l1, l2, hs, hl1⟩ : ∃ l1 l2, s = l1 ++ x :: l2 ∧ l1.length = s.indexOf x := by
    refine ⟨s.take (s.indexOf x), s.drop (s.indexOf x + 1), ?_, ?_⟩
    · conv_lhs => rw [← List.take_append_drop (s.indexOf x) s]
      rw [List.drop_eq_getElem_cons hi, List.getElem_indexOf hi]
    · simp only [List.length_take]
      exact Nat.min_eq_left (le_of_lt hi)
  rw [hs] at hl1 ⊢
  rw [← hl1]
  rcases List.eq_nil_or_concat l2 with rfl | ⟨l2', b, rfl⟩
  · unfold swapRemoveIdx
    rw [show l1 ++ [x] = (l1 ++ [x] : List Nat) from rfl]
    rw [List.getLast?_concat]
    simp only [Option.getD_some]
    rw [set_append_len, List.dropLast_concat]
    exact (List.perm_append_singleton x l1).symm
  · unfold swapRemoveIdx
    simp only [List.concat_eq_append]
    have hlast : (l1 ++ x :: (l2' ++ [b])).getLast? = some b := by
      rw [show l1 ++ x :: (l2' ++ [b]) = (l1 ++ x :: l2') ++ [b] by simp]
      exact List.getLast?_concat _
    rw [hlast]
    simp only [Option.getD_some]
    rw [set_append_len]
    rw [show l1 ++ b :: (l2' ++ [b]) = (l1 ++ b :: l2') ++ [b] by simp]
    rw [List.dropLast_concat]
    refine List.Perm.trans ?_ List.perm_middle.symm
    exact List.Perm.cons x (List.Perm.append_left l1 (List.perm_append_singleton b l2').symm)

theorem setRemove_perm_of_head {x : Nat} {rest : List Nat} :
    (setRemove (x :: rest) x).Perm rest := by
  have h := setRemove_cons_perm (s := x :: rest) (x := x) (List.mem_cons_self x rest)
  exact (List.perm_cons x).1 h

theorem setRemove_sub {s : List Nat} {x y : Nat} (hy : y ∈ setRemove s x) : y ∈ s := by
  by_cases hx : x ∈ s
  · exact (setRemove_cons_perm hx).mem_iff.1 (List.mem_cons_of_mem x hy)
  · rwa [setRemove_of_not_mem hx] at hy

theorem setRemove_nodup {s : List Nat} {x : Nat} (hs : s.Nodup) : (setRemove s x).Nodup := by
  by_cases hx : x ∈ s
  · exact (((setRemove_cons_perm hx).symm.nodup hs)).of_cons
  · rwa [setRemove_of_not_mem hx]

theorem not_mem_setRemove {s : List Nat} {x : Nat} (hs : s.Nodup) (hx : x ∈ s) :
    x ∉ setRemove s x := by
  have := (setRemove_cons_perm hx).symm.nodup hs
  exact (List.nodup_cons.1 this).1

theorem mem_setRemove_of {s : List Nat} {x y : Nat} (hy : y ∈ s) (hne : y ≠ x) :
    y ∈ setRemove s x := by
  by_cases hx : x ∈ s
  · have := (setRemove_cons_perm hx).mem_iff.2 hy
    rcases List.mem_cons.1 this with rfl | h
    · exact absurd rfl hne
    · exact h
  · rwa [setRemove_of_not_mem hx]

/-- A duplicate-free list contained in a duplicate-free list missing one of its
elements is strictly shorter. -/
theorem nodup_length_lt {s N : List Nat} {x : Nat} (hs : s.Nodup) (hN : N.Nodup)
    (hsub : ∀ y ∈ s, y ∈ N) (hx : x ∈ N) (hxs : x ∉ s) : s.length < N.length := by
  have hcons : (x :: s).Nodup := List.nodup_cons.2 ⟨hxs, hs⟩
  have hsub2 : (x :: s).toFinset ⊆ N.toFinset := by
    intro y hy
    rw [List.mem_toFinset] at hy ⊢
    rcases List.mem_cons.1 hy with rfl | hy
    · exact hx
    · exact hsub y hy
  have h1 := List.toFinset_card_of_nodup hcons
  have h2 := List.toFinset_card_of_nodup hN
  have h3 := Finset.card_le_card hsub2
  rw [h1, h2] at h3
  simp only [List.length_cons] at h3
  omega

/-! ### Lemmas about the seeding passes -/

theorem seedFrom_ok_mem {C : Nat} {edges : List Edge} {s s' : List Nat}
    (h : seedFrom C s edges = Except.ok s') :
    ∀ y, y ∈ s' ↔ y ∈ s ∨ ∃ e ∈ edges, e.«from» = y := by
  induction edges generalizing s with
  | nil =>
    simp only [seedFrom] at h
    cases h
    simp
  | cons e rest ih =>
    simp only [seedFrom] at h
    cases hset : setInsert C s e.«from» with
    | error err => rw [hset] at h; exact absurd h (by simp)
    | ok s1 =>
      rw [hset] at h
      intro y
      rw [ih h y, setInsert_mem hset y]
      constructor
      · rintro ((hy | rfl) | ⟨e', he', rfl⟩)
        · exact Or.inl hy
        · exact Or.inr ⟨e, List.mem_cons_self e rest, rfl⟩
        · exact Or.inr ⟨e', List.mem_cons_of_mem e he', rfl⟩
      · rintro (hy | ⟨e', he', rfl⟩)
        · exact Or.inl (Or.inl hy)
        · rcases List.mem_cons.1 he' with rfl | he'
          · exact Or.inl (Or.inr rfl)
          · exact Or.inr ⟨e', he', rfl⟩

theorem seedFrom_ok_nodup {C : Nat} {edges : List Edge} {s s' : List Nat}
    (h : seedFrom C s edges = Except.ok s') (hs : s.Nodup) : s'.Nodup := by
  induction edges generalizing s with
  | nil =>
    simp only [seedFrom] at h
    cases h
    exact hs
  | cons e rest ih =>
    simp only [seedFrom] at h
    cases hset : setInsert C s e.«from» with
    | error err => rw [hset] at h; exact absurd h (by simp)
    | ok s1 =>
      rw [hset] at h
      exact ih h (setInsert_nodup hset hs)

theorem seedFrom_ok_of {C : Nat} {edges : List Edge} {s N : List Nat}
    (hs : s.Nodup) (hsub : ∀ y ∈ s, y ∈ N) (hed : ∀ e ∈ edges, e.«from» ∈ N)
    (hN : N.Nodup) (hNC : N.length ≤ C) :
    ∃ s', seedFrom C s edges = Except.ok s' := by
  induction edges generalizing s with
  | nil => exact ⟨s, rfl⟩
  | cons e rest ih =>
    have hgrow : ∃ s1, setInsert C s e.«from» = Except.ok s1 := by
      apply setInsert_ok_of
      by_cases hx : e.«from» ∈ s
      · exact Or.inl hx
      · refine Or.inr (lt_of_lt_of_le ?_ hNC)
        exact nodup_length_lt hs hN hsub (hed e (List.mem_cons_self e rest)) hx
    obtain ⟨s1, hset⟩ := hgrow
    have hs1 : s1.Nodup := setInsert_nodup hset hs
    have hsub1 : ∀ y ∈ s1, y ∈ N := by
      intro y hy
      rcases (setInsert_mem hset y).1 hy with hy | rfl
      · exact hsub y hy
      · exact hed e (List.mem_cons_self e rest)
    obtain ⟨s', hrec⟩ := ih hs1 hsub1 (fun e' he' => hed e' (List.mem_cons_of_mem e he'))
    refine ⟨s', ?_⟩
    simp only [seedFrom, hset]
    exact hrec

theorem removeTargets_sub {edges : List Edge} {s : List Nat} :
    ∀ y ∈ removeTargets s edges, y ∈ s := by
  induction edges generalizing s with
  | nil => exact fun y hy => hy
  | cons e rest ih =>
    intro y hy
    simp only [removeTargets] at hy
    by_cases hc : e.«to» ∈ s
    · rw [if_pos hc] at hy
      exact setRemove_sub (ih y hy)
    · rw [if_neg hc] at hy
      exact ih y hy

theorem removeTargets_nodup {edges : List Edge} {s : List Nat} (hs : s.Nodup) :
    (removeTargets s edges).Nodup := by
  induction edges generalizing s with
  | nil => exact hs
  | cons e rest ih =>
    simp only [removeTargets]
    by_cases hc : e.«to» ∈ s
    · rw [if_pos hc]
      exact ih (setRemove_nodup hs)
    · rw [if_neg hc]
      exact ih hs

theorem removeTargets_no_target {edges : List Edge} {s : List Nat} (hs : s.Nodup) :
    ∀ e ∈ edges, e.«to» ∉ removeTargets s edges := by
  induction edges generalizing s with
  | nil => intro e he; cases he
  | cons e rest ih =>
    intro e' he'
    simp only [removeTargets]
    rcases List.mem_cons.1 he' with rfl | he'
    · by_cases hc : e'.«to» ∈ s
      · rw [if_pos hc]
        intro hmem
        exact not_mem_setRemove hs hc (removeTargets_sub _ hmem)
      · rw [if_neg hc]
        intro hmem
        exact hc (removeTargets_sub _ hmem)
    · by_cases hc : e.«to» ∈ s
      · rw [if_pos hc]
        exact ih (setRemove_nodup hs) e' he'
      · rw [if_neg hc]
        exact ih hs e' he'

theorem removeTargets_mem_of {edges : List Edge} {s : List Nat} {y : Nat}
    (hy : y ∈ s) (hno : ∀ e ∈ edges, e.«to» ≠ y) : y ∈ removeTargets s edges := by
  induction edges generalizing s with
  | nil => exact hy
  | cons e rest ih =>
    simp only [removeTargets]
    have hne : e.«to» ≠ y := hno e (List.mem_cons_self e rest)
    by_cases hc : e.«to» ∈ s
    · rw [if_pos hc]
      exact ih (mem_setRemove_of hy (fun hc2 => hne hc2.symm))
        (fun e' he' => hno e' (List.mem_cons_of_mem e he'))
    · rw [if_neg hc]
      exact ih hy (fun e' he' => hno e' (List.mem_cons_of_mem e he'))

/-! ### Lemmas about `updateStarting` -/

theorem updateStarting_sub {C node : Nat} {all : List Edge} {pending : List Edge}
    {s s2 : List Nat} (h : updateStarting C node all pending s = Except.ok s2) :
    ∀ y ∈ s, y ∈ s2 := by
  induction pending generalizing s with
  | nil =>
    simp only [updateStarting] at h
    cases h
    exact fun y hy => hy
  | cons e rest ih =>
    simp only [updateStarting] at h
    by_cases h1 : e.«from» = node
    · rw [if_pos h1] at h
      by_cases h2 : ∃ ce ∈ all, ce.«to» = e.«to» ∧ ce.«from» ≠ e.«from»
      · rw [if_pos h2] at h
        exact ih h
      · rw [if_neg h2] at h
        cases hset : setInsert C s e.«to» with
        | error err => rw [hset] at h; exact absurd h (by simp)
        | ok s1 =>
          rw [hset] at h
          intro y hy
          exact ih h y ((setInsert_mem hset y).2 (Or.inl hy))
    · rw [if_neg h1] at h
      exact ih h

theorem updateStarting_mem_elim {C node : Nat} {all : List Edge} {pending : List Edge}
    {s s2 : List Nat} (h : updateStarting C node all pending s = Except.ok s2) :
    ∀ y ∈ s2, y ∈ s ∨ ∃ e ∈ pending, e.«from» = node ∧ e.«to» = y ∧
      ¬∃ ce ∈ all, ce.«to» = e.«to» ∧ ce.«from» ≠ e.«from» := by
  induction pending generalizing s with
  | nil =>
    simp only [updateStarting] at h
    cases h
    exact fun y hy => Or.inl hy
  | cons e rest ih =>
    simp only [updateStarting] at h
    by_cases h1 : e.«from» = node
    · rw [if_pos h1] at h
      by_cases h2 : ∃ ce ∈ all, ce.«to» = e.«to» ∧ ce.«from» ≠ e.«from»
      · rw [if_pos h2] at h
        intro y hy
        rcases ih h y hy with hy' | ⟨e', he', h3⟩
        · exact Or.inl hy'
        · exact Or.inr ⟨e', List.mem_cons_of_mem e he', h3⟩
      · rw [if_neg h2] at h
        cases hset : setInsert C s e.«to» with
        | error err => rw [hset] at h; exact absurd h (by simp)
        | ok s1 =>
          rw [hset] at h
          intro y hy
          rcases ih h y hy with hy' | ⟨e', he', h3⟩
          · rcases (setInsert_mem hset y).1 hy' with hy'' | rfl
            · exact Or.inl hy''
            · exact Or.inr ⟨e, List.mem_cons_self e rest, h1, rfl, h2⟩
          · exact Or.inr ⟨e', List.mem_cons_of_mem e he', h3⟩
    · rw [if_neg h1] at h
      intro y hy
      rcases ih h y hy with hy' | ⟨e', he', h3⟩
      · exact Or.inl hy'
      · exact Or.inr ⟨e', List.mem_cons_of_mem e he', h3⟩

theorem updateStarting_mem_intro {C node : Nat} {all : List Edge} {pending : List Edge}
    {s s2 : List Nat} {e : Edge} (h : updateStarting C node all pending s = Except.ok s2)
    (he : e ∈ pending) (h1 : e.«from» = node)
    (h2 : ¬∃ ce ∈ all, ce.«to» = e.«to» ∧ ce.«from» ≠ e.«from») : e.«to» ∈ s2 := by
  induction pending generalizing s with
  | nil => cases he
  | cons e' rest ih =>
    simp only [updateStarting] at h
    rcases List.mem_cons.1 he with rfl | he'
    · rw [if_pos h1] at h
      rw [if_neg h2] at h
      cases hset : setInsert C s e.«to» with
      | error err => rw [hset] at h; exact absurd h (by simp)
      | ok s1 =>
        rw [hset] at h
        exact updateStarting_sub h _ ((setInsert_mem hset _).2 (Or.inr rfl))
    · by_cases h1' : e'.«from» = node
      · rw [if_pos h1'] at h
        by_cases h2' : ∃ ce ∈ all, ce.«to» = e'.«to» ∧ ce.«from» ≠ e'.«from»
        · rw [if_pos h2'] at h
          exact ih h he'
        · rw [if_neg h2'] at h
          cases hset : setInsert C s e'.«to» with
          | error err => rw [hset] at h; exact absurd h (by simp)
          | ok s1 =>
            rw [hset] at h
            exact ih h he'
      · rw [if_neg h1'] at h
        exact ih h he'

theorem updateStarting_ok_nodup {C node : Nat} {all : List Edge} {pending : List Edge}
    {s s2 : List Nat} (h : updateStarting C node all pending s = Except.ok s2)
    (hs : s.Nodup) : s2.Nodup := by
  induction pending generalizing s with
  | nil =>
    simp only [updateStarting] at h
    cases h
    exact hs
  | cons e rest ih =>
    simp only [updateStarting] at h
    by_cases h1 : e.«from» = node
    · rw [if_pos h1] at h
      by_cases h2 : ∃ ce ∈ all, ce.«to» = e.«to» ∧ ce.«from» ≠ e.«from»
      · rw [if_pos h2] at h
        exact ih h hs
      · rw [if_neg h2] at h
        cases hset : setInsert C s e.«to» with
        | error err => rw [hset] at h; exact absurd h (by simp)
        | ok s1 =>
          rw [hset] at h
          exact ih h (setInsert_nodup hset hs)
    · rw [if_neg h1] at h
      exact ih h hs

theorem updateStarting_ok_len {C node : Nat} {all : List Edge} {pending : List Edge}
    {s s2 : List Nat} (h : updateStarting C node all pending s = Except.ok s2) :
    s2.length ≤ s.length + pending.countP (fun e => decide (e.«from» = node)) := by
  induction pending generalizing s with
  | nil =>
    simp only [updateStarting] at h
    cases h
    simp
  | cons e rest ih =>
    simp only [updateStarting] at h
    simp only [List.countP_cons]
    by_cases h1 : e.«from» = node
    · rw [if_pos h1] at h
      by_cases h2 : ∃ ce ∈ all, ce.«to» = e.«to» ∧ ce.«from» ≠ e.«from»
      · rw [if_pos h2] at h
        have := ih h
        simp [h1]
        omega
      · rw [if_neg h2] at h
        cases hset : setInsert C s e.«to» with
        | error err => rw [hset] at h; exact absurd h (by simp)
        | ok s1 =>
          rw [hset] at h
          have hlen := setInsert_len hset
          have := ih h
          simp [h1]
          omega
    · rw [if_neg h1] at h
      have := ih h
      simp [h1]
      omega

theorem updateStarting_ok_of {C node : Nat} {all : List Edge} {pending : List Edge}
    {s A : List Nat} (hs : s.Nodup) (hsub : ∀ y ∈ s, y ∈ A)
    (hpend : ∀ e ∈ pending, e.«from» = node → e.«to» ∈ A)
    (hA : A.Nodup) (hAC : A.length ≤ C) :
    ∃ s2, updateStarting C node all pending s = Except.ok s2 := by
  induction pending generalizing s with
  | nil => exact ⟨s, rfl⟩
  | cons e rest ih =>
    by_cases h1 : e.«from» = node
    · by_cases h2 : ∃ ce ∈ all, ce.«to» = e.«to» ∧ ce.«from» ≠ e.«from»
      · obtain ⟨s2, hrec⟩ := ih hs hsub (fun e' he' => hpend e' (List.mem_cons_of_mem e he'))
        refine ⟨s2, ?_⟩
        simp only [updateStarting]
        rw [if_pos h1, if_pos h2]
        exact hrec
      · have hgrow : ∃ s1, setInsert C s e.«to» = Except.ok s1 := by
          apply setInsert_ok_of
          by_cases hx : e.«to» ∈ s
          · exact Or.inl hx
          · refine Or.inr (lt_of_lt_of_le ?_ hAC)
            exact nodup_length_lt hs hA hsub
              (hpend e (List.mem_cons_self e rest) h1) hx
        obtain ⟨s1, hset⟩ := hgrow
        have hs1 : s1.Nodup := setInsert_nodup hset hs
        have hsub1 : ∀ y ∈ s1, y ∈ A := by
          intro y hy
          rcases (setInsert_mem hset y).1 hy with hy | rfl
          · exact hsub y hy
          · exact hpend e (List.mem_cons_self e rest) h1
        obtain ⟨s2, hrec⟩ := ih hs1 hsub1 (fun e' he' => hpend e' (List.mem_cons_of_mem e he'))
        refine ⟨s2, ?_⟩
        simp only [updateStarting]
        rw [if_pos h1, if_neg h2, hset]
        exact hrec
    · obtain ⟨s2, hrec⟩ := ih hs hsub (fun e' he' => hpend e' (List.mem_cons_of_mem e he'))
      refine ⟨s2, ?_⟩
      simp only [updateStarting]
      rw [if_neg h1]
      exact hrec

/-! ### The flag buffer and `retain` are equivalent to a `filter` -/

theorem fillFlags_closed {node : Nat} {es : List Edge} :
    ∀ (fs : List Bool) (m : Nat), es.length ≤ m →
      fillFlags node es fs.length (fs ++ List.replicate m false) =
        fs ++ es.map (fun e => decide (e.«from» = node)) ++
          List.replicate (m - es.length) false := by
  induction es with
  | nil =>
    intro fs m _
    simp [fillFlags]
  | cons e rest ih =>
    intro fs m hm
    simp only [List.length_cons] at hm
    obtain ⟨m', rfl⟩ : ∃ m', m = m' + 1 := ⟨m - 1, by omega⟩
    have hrep : List.replicate (m' + 1) false = false :: List.replicate m' false := rfl
    simp only [fillFlags, hrep]
    have hflags : (if e.«from» = node
        then (fs ++ false :: List.replicate m' false).set fs.length true
        else fs ++ false :: List.replicate m' false) =
        (fs ++ [decide (e.«from» = node)]) ++ List.replicate m' false := by
      by_cases h1 : e.«from» = node
      · rw [if_pos h1, set_append_len]
        simp [h1]
      · rw [if_neg h1]
        simp [h1]
    rw [hflags]
    have hlen2 : fs.length + 1 = (fs ++ [decide (e.«from» = node)]).length := by simp
    rw [hlen2, ih (fs ++ [decide (e.«from» = node)]) m' (by omega)]
    have harith : m' + 1 - (rest.length + 1) = m' - rest.length := by omega
    simp [harith, List.append_assoc]

theorem retainUnflagged_eq {node : Nat} :
    ∀ (es : List Edge) (rest : List Bool),
      retainUnflagged es (es.map (fun e => decide (e.«from» = node)) ++ rest) =
        some (es.filter (fun e => !decide (e.«from» = node))) := by
  intro es
  induction es with
  | nil => intro rest; rfl
  | cons e es' ih =>
    intro rest
    simp only [List.map_cons, List.cons_append, retainUnflagged, List.append_eq]
    rw [ih rest]
    by_cases h1 : e.«from» = node
    · simp [h1, List.filter_cons]
    · simp [h1, List.filter_cons]

theorem retain_eq_filter {C node : Nat} {edges : List Edge} (h : edges.length ≤ C) :
    retainUnflagged edges (fillFlags node edges 0 (List.replicate C false)) =
      some (edges.filter (fun e => !decide (e.«from» = node))) := by
  have h0 := @fillFlags_closed node edges [] C h
  simp only [List.length_nil, List.nil_append] at h0
  rw [h0]
  exact retainUnflagged_eq edges _

theorem filter_not_length {node : Nat} (edges : List Edge) :
    (edges.filter (fun e => !decide (e.«from» = node))).length +
      edges.countP (fun e => decide (e.«from» = node)) = edges.length := by
  induction edges with
  | nil => rfl
  | cons e rest ih =>
    simp only [List.filter_cons, List.countP_cons]
    by_cases h1 : e.«from» = node
    · simp only [h1]
      simp only [List.length_cons] at *
      simp
      omega
    · simp [h1] at *
      omega

/-! ### The step shape and termination of the main loop -/

theorem topoLoop_cons {C fuel : Nat} {res : List Nat} {node : Nat} {rest : List Nat}
    {edges : List Edge} (hlen : edges.length ≤ C) :
    topoLoop C (fuel + 1) res (node :: rest) edges =
      if res.length < C then
        match updateStarting C node edges edges (setRemove (node :: rest) node) with
        | Except.error err => some (Except.error err)
        | Except.ok s2 =>
            topoLoop C fuel (res ++ [node]) s2
              (edges.filter (fun e => !decide (e.«from» = node)))
      else some (Except.error Error.OverCapacity) := by
  simp only [topoLoop]
  by_cases hres : res.length < C
  · rw [if_pos hres, if_pos hres]
    cases hupd : updateStarting C node edges edges (setRemove (node :: rest) node) with
    | error err => rfl
    | ok s2 =>
      have hrd : resize_default C C = some (List.replicate C false) := by
        simp [resize_default]
      simp only [hrd, retain_eq_filter hlen]
  · rw [if_neg hres, if_neg hres]

theorem topoLoop_ne_none {C : Nat} :
    ∀ (fuel : Nat) (res s : List Nat) (edges : List Edge),
      edges.length ≤ C → s.length + edges.length ≤ fuel →
      topoLoop C fuel res s edges ≠ none := by
  intro fuel
  induction fuel with
  | zero =>
    intro res s edges _ h2
    have : s = [] := by
      cases s with
      | nil => rfl
      | cons a t => simp at h2
    subst this
    simp [topoLoop]
  | succ fuel ih =>
    intro res s edges hlen h2
    cases s with
    | nil => simp [topoLoop]
    | cons node rest =>
      rw [topoLoop_cons hlen]
      by_cases hres : res.length < C
      · rw [if_pos hres]
        cases hupd : updateStarting C node edges edges (setRemove (node :: rest) node) with
        | error err => simp
        | ok s2 =>
          simp only []
          apply ih
          · exact le_trans (List.length_filter_le _ _) hlen
          · have hs1 : (setRemove (node :: rest) node).length = rest.length :=
              setRemove_perm_of_head.length_eq
            have hups := updateStarting_ok_len hupd
            have hfl := @filter_not_length node edges
            have hcnt : edges.countP (fun e => decide (e.«from» = node)) ≤ edges.length :=
              List.countP_le_length _
            simp only [List.length_cons] at h2
            omega
      · rw [if_neg hres]
        simp

/-! ### Cycle chains -/

theorem mem_nodesOf {edges : List Edge} {x : Nat} :
    x ∈ nodesOf edges ↔ ∃ e ∈ edges, x = e.«from» ∨ x = e.«to» := by
  simp only [nodesOf, List.mem_flatMap, List.mem_cons, List.mem_singleton]
  constructor
  · rintro ⟨e, he, h | h | h⟩
    · exact ⟨e, he, Or.inl h⟩
    · exact ⟨e, he, Or.inr h⟩
    · cases h
  · rintro ⟨e, he, h | h⟩
    · exact ⟨e, he, Or.inl h⟩
    · exact ⟨e, he, Or.inr (Or.inl h)⟩

theorem from_mem_nodesOf {edges : List Edge} {e : Edge} (he : e ∈ edges) :
    e.«from» ∈ nodesOf edges :=
  mem_nodesOf.2 ⟨e, he, Or.inl rfl⟩

theorem to_mem_nodesOf {edges : List Edge} {e : Edge} (he : e ∈ edges) :
    e.«to» ∈ nodesOf edges :=
  mem_nodesOf.2 ⟨e, he, Or.inr rfl⟩

theorem chainLinked_cons_cons {a b : Edge} {l : List Edge} :
    chainLinked (a :: b :: l) = true ↔ a.«to» = b.«from» ∧ chainLinked (b :: l) = true := by
  simp [chainLinked]

theorem chainLinked_pred {a : Edge} {l : List Edge} (h : chainLinked (a :: l) = true) :
    ∀ e ∈ l, ∃ p ∈ a :: l, p.«to» = e.«from» := by
  induction l generalizing a with
  | nil => intro e he; cases he
  | cons b l' ih =>
    intro e he
    obtain ⟨hab, h2⟩ := chainLinked_cons_cons.1 h
    rcases List.mem_cons.1 he with rfl | he'
    · exact ⟨a, List.mem_cons_self a _, hab⟩
    · obtain ⟨p, hp, hpe⟩ := ih h2 e he'
      exact ⟨p, List.mem_cons_of_mem a hp, hpe⟩

/-- In a cyclic chain, every edge's source is some chain edge's target. -/
theorem cycleChain_pred {edges es : List Edge} (h : IsCycleChainIn edges es) :
    ∀ e ∈ es, ∃ p ∈ es, p.«to» = e.«from» := by
  obtain ⟨hne, _, hlink, e0, eL, hhead, hlast, hwrap⟩ := h
  cases es with
  | nil => exact absurd rfl hne
  | cons a l =>
    have ha : a = e0 := by
      simp only [List.head?_cons, Option.some.injEq] at hhead
      exact hhead
    intro e he
    rcases List.mem_cons.1 he with rfl | he'
    · refine ⟨eL, List.mem_of_getLast?_eq_some hlast, ?_⟩
      rw [hwrap, ha]
    · exact chainLinked_pred hlink e he'

/-- Retiring the out-edges of a node with no remaining incoming edge preserves
any cyclic chain of the remaining edges. -/
theorem cycleChain_filter {node : Nat} {edges es : List Edge}
    (hni : ∀ e ∈ edges, e.«to» ≠ node) (h : IsCycleChainIn edges es) :
    IsCycleChainIn (edges.filter (fun e => !decide (e.«from» = node))) es := by
  obtain ⟨hne, hmem, hlink, hshape⟩ := h
  refine ⟨hne, ?_, hlink, hshape⟩
  intro e he
  rw [List.mem_filter]
  refine ⟨hmem e he, ?_⟩
  simp only [Bool.not_eq_eq_eq_not, Bool.not_true, decide_eq_false_iff_not]
  intro hfe
  obtain ⟨p, hp, hpe⟩ := cycleChain_pred ⟨hne, hmem, hlink, hshape⟩ e he
  exact hni p (hmem p hp) (hpe.trans hfe)

/-- If the loop finishes with `Ok`, the edges it started from contained no
cyclic chain. -/
theorem topoLoop_ok_no_chain {C : Nat} :
    ∀ (fuel : Nat) (res s : List Nat) (edges : List Edge) (out : List Nat),
      (∀ x ∈ s, ∀ e ∈ edges, e.«to» ≠ x) →
      edges.length ≤ C →
      topoLoop C fuel res s edges = some (Except.ok out) →
      ∀ es, ¬ IsCycleChainIn edges es := by
  intro fuel
  induction fuel with
  | zero =>
    intro res s edges out hmini hlen heq es hchain
    cases s with
    | nil =>
      simp only [topoLoop] at heq
      have hempty : edges.isEmpty = true := by
        by_cases hh : edges.isEmpty
        · exact hh
        · rw [if_neg hh] at heq
          simp at heq
      have : edges = [] := List.isEmpty_iff.1 hempty
      subst this
      obtain ⟨hne, hmem, _, e0, _, hhead, _, _⟩ := hchain
      cases hes : es with
      | nil => exact hne hes
      | cons a l => exact absurd (hmem a (hes ▸ List.mem_cons_self a l)) (by simp)
    | cons node rest => simp [topoLoop] at heq
  | succ fuel ih =>
    intro res s edges out hmini hlen heq es hchain
    cases s with
    | nil =>
      simp only [topoLoop] at heq
      have hempty : edges.isEmpty = true := by
        by_cases hh : edges.isEmpty
        · exact hh
        · rw [if_neg hh] at heq
          simp at heq
      have : edges = [] := List.isEmpty_iff.1 hempty
      subst this
      obtain ⟨hne, hmem, _, e0, _, hhead, _, _⟩ := hchain
      cases hes : es with
      | nil => exact hne hes
      | cons a l => exact absurd (hmem a (hes ▸ List.mem_cons_self a l)) (by simp)
    | cons node rest =>
      rw [topoLoop_cons hlen] at heq
      by_cases hres : res.length < C
      · rw [if_pos hres] at heq
        cases hupd : updateStarting C node edges edges (setRemove (node :: rest) node) with
        | error err => rw [hupd] at heq; simp at heq
        | ok s2 =>
          rw [hupd] at heq
          simp only [] at heq
          have hnode : ∀ e ∈ edges, e.«to» ≠ node :=
            fun e he => hmini node (List.mem_cons_self node rest) e he
          have hmini2 : ∀ x ∈ s2, ∀ e ∈ edges.filter (fun e => !decide (e.«from» = node)),
              e.«to» ≠ x := by
            intro x hx e hef
            obtain ⟨hee, hfe⟩ := List.mem_filter.1 hef
            simp only [Bool.not_eq_eq_eq_not, Bool.not_true, decide_eq_false_iff_not] at hfe
            rcases updateStarting_mem_elim hupd x hx with hx1 | ⟨e', he', hfrom, hto, hnc⟩
            · have hxs : x ∈ node :: rest := setRemove_sub hx1
              exact hmini x hxs e hee
            · intro hc
              exact hnc ⟨e, hee, by rw [hc, hto], by rw [hfrom]; exact hfe⟩
          have hchain2 := cycleChain_filter hnode hchain
          exact ih (res ++ [node]) s2 _ out hmini2
            (le_trans (List.length_filter_le _ _) hlen) heq es hchain2
      · rw [if_neg hres] at heq
        simp at heq

/-! ### Extracting a cycle when every remaining edge has a predecessor -/

theorem predSeq_step {edges : List Edge} {e0 : Edge}
    (hpred : ∀ e ∈ edges, ∃ p ∈ edges, p.«to» = e.«from») {k : Nat}
    (hm : predSeq edges e0 k ∈ edges) :
    predSeq edges e0 (k + 1) ∈ edges ∧
      (predSeq edges e0 (k + 1)).«to» = (predSeq edges e0 k).«from» := by
  obtain ⟨p, hp, hpe⟩ := hpred _ hm
  have hsome : (edges.find? (fun p => p.«to» == (predSeq edges e0 k).«from»)).isSome := by
    rw [List.find?_isSome]
    exact ⟨p, hp, by simp [hpe]⟩
  obtain ⟨p', hp'⟩ := Option.isSome_iff_exists.1 hsome
  have h1 := List.mem_of_find?_eq_some hp'
  have h2 := List.find?_some hp'
  have heq : predSeq edges e0 (k + 1) =
      (edges.find? (fun p => p.«to» == (predSeq edges e0 k).«from»)).getD e0 := rfl
  rw [hp', Option.getD_some] at heq
  rw [heq]
  exact ⟨h1, by simpa using h2⟩

theorem predSeq_mem {edges : List Edge} {e0 : Edge} (he0 : e0 ∈ edges)
    (hpred : ∀ e ∈ edges, ∃ p ∈ edges, p.«to» = e.«from») :
    ∀ k, predSeq edges e0 k ∈ edges := by
  intro k
  induction k with
  | zero => exact he0
  | succ k ih => exact (predSeq_step hpred ih).1

theorem predSeq_link {edges : List Edge} {e0 : Edge} (he0 : e0 ∈ edges)
    (hpred : ∀ e ∈ edges, ∃ p ∈ edges, p.«to» = e.«from») :
    ∀ k, (predSeq edges e0 (k + 1)).«to» = (predSeq edges e0 k).«from» :=
  fun k => (predSeq_step hpred (predSeq_mem he0 hpred k)).2

theorem downFrom_ne_nil {f : Nat → Edge} {top len : Nat} (h : 1 ≤ len) :
    downFrom f top len ≠ [] := by
  cases len with
  | zero => omega
  | succ len' => simp [downFrom]

theorem downFrom_mem {f : Nat → Edge} :
    ∀ {top len : Nat}, ∀ e ∈ downFrom f top len, ∃ k, e = f k := by
  intro top len
  induction len generalizing top with
  | zero => intro e he; cases he
  | succ len' ih =>
    intro e he
    simp only [downFrom, List.mem_cons] at he
    rcases he with rfl | he'
    · exact ⟨top, rfl⟩
    · exact ih e he'

theorem downFrom_head {f : Nat → Edge} {top len : Nat} (h : 1 ≤ len) :
    (downFrom f top len).head? = some (f top) := by
  cases len with
  | zero => omega
  | succ len' => simp [downFrom]

theorem downFrom_last {f : Nat → Edge} :
    ∀ (len top : Nat), (downFrom f top (len + 1)).getLast? = some (f (top - len)) := by
  intro len
  induction len with
  | zero => intro top; simp [downFrom]
  | succ len' ih =>
    intro top
    show (f top :: downFrom f (top - 1) (len' + 1)).getLast? = some (f (top - (len' + 1)))
    have hd : downFrom f (top - 1) (len' + 1) =
        f (top - 1) :: downFrom f (top - 1 - 1) len' := rfl
    rw [hd, List.getLast?_cons_cons, ← hd, ih (top - 1)]
    have harith : top - 1 - len' = top - (len' + 1) := by omega
    rw [harith]

theorem downFrom_linked {f : Nat → Edge}
    (hlink : ∀ k, (f (k + 1)).«to» = (f k).«from») :
    ∀ (len top : Nat), len ≤ top + 1 → chainLinked (downFrom f top len) = true := by
  intro len
  induction len with
  | zero => intro top _; rfl
  | succ len' ih =>
    intro top hle
    cases len' with
    | zero => simp [downFrom, chainLinked]
    | succ len'' =>
      show chainLinked (f top :: downFrom f (top - 1) (len'' + 1)) = true
      have hd : downFrom f (top - 1) (len'' + 1) =
          f (top - 1) :: downFrom f (top - 1 - 1) len'' := rfl
      rw [hd, chainLinked_cons_cons, ← hd]
      constructor
      · have h := hlink (top - 1)
        have htop : top - 1 + 1 = top := by omega
        rwa [htop] at h
      · exact ih (top - 1) (by omega)

/-- A non-empty edge set in which every edge's source has an incoming edge
contains a cycle (by pigeonhole on the iterated-predecessor sequence). -/
theorem exists_cycle_of_all_pred {edges : List Edge} (hne : edges ≠ [])
    (hpred : ∀ e ∈ edges, ∃ p ∈ edges, p.«to» = e.«from») :
    HasCycle edges := by
  obtain ⟨e0, he0⟩ : ∃ e0, e0 ∈ edges := by
    cases edges with
    | nil => exact absurd rfl hne
    | cons a l => exact ⟨a, List.mem_cons_self a l⟩
  set q : Nat → Edge := predSeq edges e0 with hqdef
  have hqmem : ∀ k, q k ∈ edges := predSeq_mem he0 hpred
  have hqlink : ∀ k, (q (k + 1)).«to» = (q k).«from» := predSeq_link he0 hpred
  have hcard : edges.toFinset.card < (Finset.range (edges.length + 1)).card := by
    have h4 : edges.toFinset.card ≤ edges.length := edges.toFinset_card_le
    simp only [Finset.card_range]
    omega
  obtain ⟨a, _, b, _, hne2, hqab⟩ :=
    Finset.exists_ne_map_eq_of_card_lt_of_maps_to hcard
      (fun k _ => List.mem_toFinset.2 (hqmem k))
  obtain ⟨i, j, hij, hqij⟩ : ∃ i j, i < j ∧ q i = q j := by
    rcases Nat.lt_or_ge a b with h | h
    · exact ⟨a, b, h, hqab⟩
    · have hba : b < a := by omega
      exact ⟨b, a, hba, hqab.symm⟩
  refine ⟨downFrom q j (j - i), ?_, ?_, ?_, ?_⟩
  · exact downFrom_ne_nil (by omega)
  · intro e he
    obtain ⟨k, rfl⟩ := downFrom_mem e he
    exact hqmem k
  · exact downFrom_linked hqlink (j - i) j (by omega)
  · obtain ⟨m, hm⟩ : ∃ m, j - i = m + 1 := ⟨j - i - 1, by omega⟩
    refine ⟨q j, q (i + 1), ?_, ?_, ?_⟩
    · rw [hm]
      exact downFrom_head (by omega)
    · rw [hm, downFrom_last m j]
      congr 2
      omega
    · rw [hqlink i, hqij]

/-! ### Small helpers for `Before`, cardinalities and cycles -/

theorem before_append_right {l l' : List Nat} {a b : Nat} (h : Before l a b) :
    Before (l ++ l') a b := by
  obtain ⟨l1, l2, l3, rfl⟩ := h
  exact ⟨l1, l2, l3 ++ l', by simp⟩

theorem before_append_of_mem {l : List Nat} {a b : Nat} (ha : a ∈ l) :
    Before (l ++ [b]) a b := by
  obtain ⟨u, v, rfl⟩ := List.append_of_mem ha
  exact ⟨u, v, [], by simp⟩

theorem nodup_length_le {s N : List Nat} (hs : s.Nodup) (hN : N.Nodup)
    (hsub : ∀ y ∈ s, y ∈ N) : s.length ≤ N.length := by
  have h1 := List.toFinset_card_of_nodup hs
  have h2 := List.toFinset_card_of_nodup hN
  have h3 : s.toFinset ⊆ N.toFinset := by
    intro y hy
    rw [List.mem_toFinset] at hy ⊢
    exact hsub y hy
  have h4 := Finset.card_le_card h3
  omega

theorem hasCycle_sub {edges g0 : List Edge} (hsub : ∀ e ∈ edges, e ∈ g0)
    (h : HasCycle edges) : HasCycle g0 := by
  obtain ⟨es, hne, hmem, hrest⟩ := h
  exact ⟨es, hne, fun e he => hsub e (hmem e he), hrest⟩

/-! ### Establishing the loop invariant after the seeding passes -/

theorem inv_init {C : Nat} {g0 : List Edge} {s0 : List Nat}
    (hseed : seedFrom C [] g0 = Except.ok s0) :
    Inv C g0 [] (removeTargets s0 g0) g0 := by
  have hs0nd : s0.Nodup := seedFrom_ok_nodup hseed List.nodup_nil
  have hs0mem := seedFrom_ok_mem hseed
  refine ⟨?_, ?_, ?_, ?_, ?_, ?_, ?_, ?_, ?_, ?_, ?_, ?_, ?_⟩
  · exact fun e he => he
  · exact le_refl _
  · exact removeTargets_nodup hs0nd
  · exact List.nodup_nil
  · simp
  · intro x _
    simp
  · intro x hx
    have hx0 : x ∈ s0 := removeTargets_sub x hx
    rcases (hs0mem x).1 hx0 with h | ⟨e, he, rfl⟩
    · cases h
    · exact from_mem_nodesOf he
  · intro x hx
    cases hx
  · intro x hx e he hc
    exact removeTargets_no_target hs0nd e he (hc ▸ hx)
  · intro x hx
    cases hx
  · intro x hx
    exact Or.inr (Or.inr hx)
  · intro e he
    by_cases hp : ∃ p ∈ g0, p.«to» = e.«from»
    · exact Or.inr hp
    · push_neg at hp
      refine Or.inl ?_
      have hmem0 : e.«from» ∈ s0 := (hs0mem _).2 (Or.inr ⟨e, he, rfl⟩)
      exact removeTargets_mem_of hmem0 hp
  · exact fun e he => Or.inl he


/-! ### Preservation of the loop invariant across one iteration -/

theorem inv_step {C : Nat} {g0 : List Edge} {res s2 : List Nat} {node : Nat}
    {rest : List Nat} {edges : List Edge}
    (hinv : Inv C g0 res (node :: rest) edges)
    (hres : res.length < C)
    (hupd : updateStarting C node edges edges (setRemove (node :: rest) node) =
      Except.ok s2) :
    Inv C g0 (res ++ [node]) s2 (edges.filter (fun e => !decide (e.«from» = node))) := by
  have hnodein : node ∈ node :: rest := List.mem_cons_self node rest
  have hs1perm : (setRemove (node :: rest) node).Perm rest := setRemove_perm_of_head
  have hs1sub : ∀ x ∈ setRemove (node :: rest) node, x ∈ rest :=
    fun x hx => hs1perm.mem_iff.1 hx
  have hnodenotrest : node ∉ rest := (List.nodup_cons.1 hinv.snd).1
  have hrestnd : rest.Nodup := (List.nodup_cons.1 hinv.snd).2
  have hs1nd : (setRemove (node :: rest) node).Nodup := hs1perm.symm.nodup hrestnd
  have hmemf : ∀ {e : Edge}, e ∈ edges.filter (fun e => !decide (e.«from» = node)) →
      e ∈ edges ∧ e.«from» ≠ node := by
    intro e hef
    obtain ⟨h1, h2⟩ := List.mem_filter.1 hef
    simp only [Bool.not_eq_eq_eq_not, Bool.not_true, decide_eq_false_iff_not] at h2
    exact ⟨h1, h2⟩
  have hmemf2 : ∀ {e : Edge}, e ∈ edges → e.«from» ≠ node →
      e ∈ edges.filter (fun e => !decide (e.«from» = node)) := by
    intro e h1 h2
    rw [List.mem_filter]
    exact ⟨h1, by simpa using h2⟩
  have hins : ∀ x ∈ s2, x ∈ rest ∨ ∃ e' ∈ edges, e'.«from» = node ∧ e'.«to» = x ∧
      ¬∃ ce ∈ edges, ce.«to» = e'.«to» ∧ ce.«from» ≠ e'.«from» := by
    intro x hx
    rcases updateStarting_mem_elim hupd x hx with hx1 | ⟨e', he', h3, h4, h5⟩
    · exact Or.inl (hs1sub x hx1)
    · exact Or.inr ⟨e', he', h3, h4, h5⟩
  have hins_nodes : ∀ {e' : Edge}, e' ∈ edges → e'.«to» ∈ nodesOf g0 :=
    fun he' => to_mem_nodesOf (hinv.sub _ he')
  have hins_notres : ∀ {e' : Edge}, e' ∈ edges → e'.«to» ∉ res := by
    intro e' he' hmem
    exact (hinv.rtouch _ hmem e' he').2 rfl
  have hins_nenode : ∀ {e' : Edge}, e' ∈ edges → e'.«to» ≠ node :=
    fun he' => hinv.noinc node hnodein _ he'
  refine ⟨?_, ?_, ?_, ?_, ?_, ?_, ?_, ?_, ?_, ?_, ?_, ?_, ?_⟩
  · exact fun e he => hinv.sub e (hmemf he).1
  · exact le_trans (List.length_filter_le _ _) hinv.elen
  · exact updateStarting_ok_nodup hupd hs1nd
  · rw [List.nodup_append]
    refine ⟨hinv.rnd, by simp, ?_⟩
    intro y hy hyn
    simp only [List.mem_singleton] at hyn
    exact (hinv.disj node hnodein) (hyn ▸ hy)
  · simp only [List.length_append, List.length_singleton]
    omega
  · intro x hx
    simp only [List.mem_append, List.mem_singleton]
    rcases hins x hx with hx1 | ⟨e', he', _, rfl, _⟩
    · push_neg
      exact ⟨hinv.disj x (List.mem_cons_of_mem node hx1),
        fun hxn => hnodenotrest (hxn ▸ hx1)⟩
    · push_neg
      exact ⟨hins_notres he', hins_nenode he'⟩
  · intro x hx
    rcases hins x hx with hx1 | ⟨e', he', _, rfl, _⟩
    · exact hinv.smem x (List.mem_cons_of_mem node hx1)
    · exact hins_nodes he'
  · intro x hx
    rcases List.mem_append.1 hx with hx1 | hx1
    · exact hinv.rmem x hx1
    · rw [List.mem_singleton] at hx1
      exact hx1 ▸ hinv.smem node hnodein
  · intro x hx e hef hc
    obtain ⟨hee, hfne⟩ := hmemf hef
    rcases hins x hx with hx1 | ⟨e', he', h3, h4, h5⟩
    · exact hinv.noinc x (List.mem_cons_of_mem node hx1) e hee hc
    · exact h5 ⟨e, hee, by rw [hc, h4], by rw [h3]; exact hfne⟩
  · intro x hx e hef
    obtain ⟨hee, hfne⟩ := hmemf hef
    rcases List.mem_append.1 hx with hx1 | hx1
    · exact hinv.rtouch x hx1 e hee
    · rw [List.mem_singleton] at hx1
      subst hx1
      exact ⟨hfne, hinv.noinc x hnodein e hee⟩
  · intro x hx
    rcases hinv.cover x hx with hx1 | hx1 | hx1
    · exact Or.inl (List.mem_append.2 (Or.inl hx1))
    · rcases List.mem_cons.1 hx1 with rfl | hx2
      · exact Or.inl (List.mem_append.2 (Or.inr (by simp)))
      · refine Or.inr (Or.inl ?_)
        exact updateStarting_sub hupd x (hs1perm.mem_iff.2 hx2)
    · obtain ⟨e, he, hx2⟩ := mem_nodesOf.1 hx1
      by_cases hef : e.«from» = node
      · rcases hx2 with rfl | rfl
        · exact Or.inl (List.mem_append.2 (Or.inr (by simp [hef])))
        · by_cases hc : ∃ ce ∈ edges, ce.«to» = e.«to» ∧ ce.«from» ≠ e.«from»
          · obtain ⟨ce, hce, hcet, hcef⟩ := hc
            refine Or.inr (Or.inr ?_)
            rw [← hcet]
            exact to_mem_nodesOf (hmemf2 hce (by rw [← hef]; exact hcef))
          · refine Or.inr (Or.inl ?_)
            exact updateStarting_mem_intro hupd he hef hc
      · refine Or.inr (Or.inr ?_)
        rcases hx2 with rfl | rfl
        · exact from_mem_nodesOf (hmemf2 he hef)
        · exact to_mem_nodesOf (hmemf2 he hef)
  · intro e hef
    obtain ⟨hee, hfne⟩ := hmemf hef
    rcases hinv.live e hee with h1 | ⟨p, hp, hpe⟩
    · rcases List.mem_cons.1 h1 with hq | hq
      · exact absurd hq hfne
      · exact Or.inl (updateStarting_sub hupd _ (hs1perm.mem_iff.2 hq))
    · by_cases hpf : p.«from» = node
      · by_cases hc : ∃ ce ∈ edges, ce.«to» = p.«to» ∧ ce.«from» ≠ p.«from»
        · obtain ⟨ce, hce, hcet, hcef⟩ := hc
          refine Or.inr ⟨ce, hmemf2 hce (by rw [← hpf]; exact hcef), hcet.trans hpe⟩
        · refine Or.inl ?_
          have := updateStarting_mem_intro hupd hp hpf hc
          rwa [hpe] at this
      · exact Or.inr ⟨p, hmemf2 hp hpf, hpe⟩
  · intro e he
    rcases hinv.order e he with h1 | ⟨hfr, hto⟩ | h1
    · by_cases hef : e.«from» = node
      · refine Or.inr (Or.inl ⟨?_, ?_⟩)
        · rw [hef]
          exact List.mem_append.2 (Or.inr (by simp))
        · intro hc
          rcases List.mem_append.1 hc with hc1 | hc1
          · exact (hinv.rtouch _ hc1 e h1).2 rfl
          · rw [List.mem_singleton] at hc1
            exact hinv.noinc node hnodein e h1 hc1
      · exact Or.inl (hmemf2 h1 hef)
    · by_cases hc : e.«to» = node
      · refine Or.inr (Or.inr ?_)
        rw [hc]
        exact before_append_of_mem hfr
      · refine Or.inr (Or.inl ⟨List.mem_append.2 (Or.inl hfr), ?_⟩)
        intro hmem
        rcases List.mem_append.1 hmem with h2 | h2
        · exact hto h2
        · rw [List.mem_singleton] at h2
          exact hc h2
    · exact Or.inr (Or.inr (before_append_right h1))


/-! ### Soundness: an `Ok` run establishes the final invariant -/

theorem fillFlags_length {node : Nat} {edges : List Edge} :
    ∀ {idx : Nat} {flags : List Bool}, (fillFlags node edges idx flags).length = flags.length := by
  induction edges with
  | nil => intro idx flags; rfl
  | cons e rest ih =>
    intro idx flags
    simp only [fillFlags]
    rw [ih]
    by_cases h : e.«from» = node
    · rw [if_pos h, List.length_set]
    · rw [if_neg h]

theorem retainUnflagged_none {edges : List Edge} :
    ∀ {flags : List Bool}, flags.length < edges.length → retainUnflagged edges flags = none := by
  induction edges with
  | nil => intro flags h; simp at h
  | cons e rest ih =>
    intro flags h
    cases flags with
    | nil => rfl
    | cons f fs =>
      simp only [List.length_cons] at h
      simp only [retainUnflagged]
      rw [ih (by omega)]

theorem topoLoop_ok_inv {C : Nat} {g0 : List Edge} :
    ∀ (fuel : Nat) (res s : List Nat) (edges : List Edge) (out : List Nat),
      Inv C g0 res s edges →
      topoLoop C fuel res s edges = some (Except.ok out) →
      Inv C g0 out [] [] := by
  intro fuel
  induction fuel with
  | zero =>
    intro res s edges out hinv heq
    cases s with
    | nil =>
      simp only [topoLoop] at heq
      by_cases hh : edges.isEmpty
      · rw [if_pos hh] at heq
        have hout : res = out := by
          have := Option.some.inj heq
          exact Except.ok.inj this
        have hedges : edges = [] := List.isEmpty_iff.1 hh
        subst hout
        subst hedges
        exact hinv
      · rw [if_neg hh] at heq
        simp at heq
    | cons node rest => simp [topoLoop] at heq
  | succ fuel ih =>
    intro res s edges out hinv heq
    cases s with
    | nil =>
      simp only [topoLoop] at heq
      by_cases hh : edges.isEmpty
      · rw [if_pos hh] at heq
        have hout : res = out := by
          have := Option.some.inj heq
          exact Except.ok.inj this
        have hedges : edges = [] := List.isEmpty_iff.1 hh
        subst hout
        subst hedges
        exact hinv
      · rw [if_neg hh] at heq
        simp at heq
    | cons node rest =>
      by_cases hlen : edges.length ≤ C
      · rw [topoLoop_cons hlen] at heq
        by_cases hres : res.length < C
        · rw [if_pos hres] at heq
          cases hupd : updateStarting C node edges edges (setRemove (node :: rest) node) with
          | error err => rw [hupd] at heq; simp at heq
          | ok s2 =>
            rw [hupd] at heq
            simp only [] at heq
            exact ih _ s2 _ out (inv_step hinv hres hupd) heq
        · rw [if_neg hres] at heq
          simp at heq
      · exfalso
        simp only [topoLoop] at heq
        by_cases hres : res.length < C
        · rw [if_pos hres] at heq
          cases hupd : updateStarting C node edges edges (setRemove (node :: rest) node) with
          | error err => rw [hupd] at heq; simp at heq
          | ok s2 =>
            rw [hupd] at heq
            have hrd : resize_default C C = some (List.replicate C false) := by
              simp [resize_default]
            have hnone : retainUnflagged edges
                (fillFlags node edges 0 (List.replicate C false)) = none := by
              apply retainUnflagged_none
              rw [fillFlags_length, List.length_replicate]
              omega
            simp only [hrd] at heq
            rw [hnone] at heq
            simp at heq
        · rw [if_neg hres] at heq
          simp at heq

/-! ### Totality: within capacity the loop reaches `Ok` or detects a cycle -/

theorem topoLoop_total {C : Nat} {g0 : List Edge} :
    ∀ (fuel : Nat) (res s : List Nat) (edges : List Edge),
      Inv C g0 res s edges →
      (nodesOf g0).dedup.length ≤ C →
      g0.length ≤ C →
      s.length + edges.length ≤ fuel →
      (∃ out, topoLoop C fuel res s edges = some (Except.ok out)) ∨
      (topoLoop C fuel res s edges = some (Except.error Error.Cycle) ∧ HasCycle g0) := by
  intro fuel
  induction fuel with
  | zero =>
    intro res s edges hinv hD hg0 hfuel
    have hs : s = [] := by
      cases s with
      | nil => rfl
      | cons a t => simp at hfuel
    subst hs
    have he : edges = [] := by
      cases edges with
      | nil => rfl
      | cons a t => simp at hfuel
    subst he
    exact Or.inl ⟨res, by simp [topoLoop]⟩
  | succ fuel ih =>
    intro res s edges hinv hD hg0 hfuel
    cases s with
    | nil =>
      cases hedges : edges with
      | nil => exact Or.inl ⟨res, by simp [topoLoop]⟩
      | cons a t =>
        subst hedges
        refine Or.inr ⟨by simp [topoLoop], ?_⟩
        have hpred : ∀ e ∈ a :: t, ∃ p ∈ a :: t, p.«to» = e.«from» := by
          intro e he
          rcases hinv.live e he with h1 | h1
          · cases h1
          · exact h1
        exact hasCycle_sub hinv.sub (exists_cycle_of_all_pred (by simp) hpred)
    | cons node rest =>
      have hlen : edges.length ≤ C := le_trans hinv.elen hg0
      rw [topoLoop_cons hlen]
      have hresS : (res ++ node :: rest).Nodup := by
        rw [List.nodup_append]
        refine ⟨hinv.rnd, hinv.snd, ?_⟩
        intro y hy hys
        exact absurd hy (hinv.disj y hys)
      have hresSsub : ∀ y ∈ res ++ node :: rest, y ∈ (nodesOf g0).dedup := by
        intro y hy
        rw [List.mem_dedup]
        rcases List.mem_append.1 hy with h | h
        · exact hinv.rmem y h
        · exact hinv.smem y h
      have hlen2 := nodup_length_le hresS (List.nodup_dedup _) hresSsub
      simp only [List.length_append, List.length_cons] at hlen2
      have hres : res.length < C := by omega
      rw [if_pos hres]
      have hs1perm : (setRemove (node :: rest) node).Perm rest := setRemove_perm_of_head
      have hnodenotrest : node ∉ rest := (List.nodup_cons.1 hinv.snd).1
      have hrestnd : rest.Nodup := (List.nodup_cons.1 hinv.snd).2
      have hs1nd : (setRemove (node :: rest) node).Nodup := hs1perm.symm.nodup hrestnd
      obtain ⟨s2, hupd⟩ : ∃ s2,
          updateStarting C node edges edges (setRemove (node :: rest) node) =
            Except.ok s2 := by
        apply updateStarting_ok_of (A :=
          (nodesOf g0).dedup.filter (fun y => decide (y ∉ res ++ [node])))
        · exact hs1nd
        · intro x hx
          have hxr : x ∈ rest := hs1perm.mem_iff.1 hx
          rw [List.mem_filter]
          constructor
          · rw [List.mem_dedup]
            exact hinv.smem x (List.mem_cons_of_mem node hxr)
          · simp only [decide_eq_true_eq, List.mem_append, List.mem_singleton]
            push_neg
            exact ⟨hinv.disj x (List.mem_cons_of_mem node hxr),
              fun hxn => hnodenotrest (hxn ▸ hxr)⟩
        · intro e he hef
          rw [List.mem_filter]
          constructor
          · rw [List.mem_dedup]
            exact to_mem_nodesOf (hinv.sub e he)
          · simp only [decide_eq_true_eq, List.mem_append, List.mem_singleton]
            push_neg
            refine ⟨?_, hinv.noinc node (List.mem_cons_self node rest) e he⟩
            intro hmem
            exact (hinv.rtouch _ hmem e he).2 rfl
        · exact (List.nodup_dedup _).filter _
        · exact le_trans (List.length_filter_le _ _) hD
      rw [hupd]
      simp only []
      have hinv2 := inv_step hinv hres hupd
      have hfuel2 : s2.length +
          (edges.filter (fun e => !decide (e.«from» = node))).length ≤ fuel := by
        have hups := updateStarting_ok_len hupd
        have hs1len : (setRemove (node :: rest) node).length = rest.length :=
          hs1perm.length_eq
        have hfl := @filter_not_length node edges
        have hcnt : edges.countP (fun e => decide (e.«from» = node)) ≤ edges.length :=
          List.countP_le_length _
        simp only [List.length_cons] at hfuel
        omega
      exact ih (res ++ [node]) s2 _ hinv2 hD hg0 hfuel2


/-! ### Top-level consequences for `into_topo_sorted` -/

theorem into_topo_sorted_ne_none {C : Nat} {g : Graph C} (hlen : g.edges.length ≤ C) :
    into_topo_sorted g ≠ none := by
  unfold into_topo_sorted
  cases hseed : seedFrom C [] g.edges with
  | error err => simp
  | ok s0 =>
    simp only []
    exact topoLoop_ne_none _ _ _ _ hlen (le_refl _)

theorem into_topo_sorted_ok_inv {C : Nat} {g : Graph C} {out : List Nat}
    (h : into_topo_sorted g = some (Except.ok out)) : Inv C g.edges out [] [] := by
  unfold into_topo_sorted at h
  cases hseed : seedFrom C [] g.edges with
  | error err => rw [hseed] at h; simp at h
  | ok s0 =>
    rw [hseed] at h
    simp only [] at h
    exact topoLoop_ok_inv _ _ _ _ out (inv_init hseed) h

theorem into_topo_sorted_not_ok_of_hasCycle {C : Nat} {g : Graph C}
    (hcyc : HasCycle g.edges) (hlen : g.edges.length ≤ C) :
    ∀ out, into_topo_sorted g ≠ some (Except.ok out) := by
  intro out h
  unfold into_topo_sorted at h
  cases hseed : seedFrom C [] g.edges with
  | error err => rw [hseed] at h; simp at h
  | ok s0 =>
    rw [hseed] at h
    simp only [] at h
    obtain ⟨es, hes⟩ := hcyc
    exact topoLoop_ok_no_chain _ _ _ _ out (inv_init hseed).noinc hlen h es hes

theorem into_topo_sorted_total {C : Nat} {g : Graph C}
    (hlen : g.edges.length ≤ C) (hD : (nodesOf g.edges).dedup.length ≤ C) :
    (∃ out, into_topo_sorted g = some (Except.ok out) ∧ Inv C g.edges out [] []) ∨
    (into_topo_sorted g = some (Except.error Error.Cycle) ∧ HasCycle g.edges) := by
  obtain ⟨s0, hseed⟩ : ∃ s0, seedFrom C [] g.edges = Except.ok s0 := by
    apply seedFrom_ok_of (N := (nodesOf g.edges).dedup)
    · exact List.nodup_nil
    · intro y hy; cases hy
    · intro e he
      rw [List.mem_dedup]
      exact from_mem_nodesOf he
    · exact List.nodup_dedup _
    · exact hD
  unfold into_topo_sorted
  rw [hseed]
  simp only []
  rcases topoLoop_total ((removeTargets s0 g.edges).length + g.edges.length) []
      (removeTargets s0 g.edges) g.edges (inv_init hseed) hD hlen (le_refl _) with
    ⟨out, hout⟩ | ⟨herr, hcyc2⟩
  · exact Or.inl ⟨out, hout, topoLoop_ok_inv _ _ _ _ out (inv_init hseed) hout⟩
  · exact Or.inr ⟨herr, hcyc2⟩


/-! ### Reading off the final invariant, and permutation transfer -/

theorem inv_final {C : Nat} {g0 : List Edge} {out : List Nat} (h : Inv C g0 out [] []) :
    out.Nodup ∧ out.Perm (nodesOf g0).dedup ∧ out.length ≤ C ∧
      ∀ e ∈ g0, Before out e.«from» e.«to» := by
  have hmem : ∀ x, x ∈ out ↔ x ∈ (nodesOf g0).dedup := by
    intro x
    rw [List.mem_dedup]
    constructor
    · exact h.rmem x
    · intro hx
      rcases h.cover x hx with h1 | h1 | h1
      · exact h1
      · cases h1
      · simp [nodesOf] at h1
  have hperm : out.Perm (nodesOf g0).dedup :=
    (List.perm_ext_iff_of_nodup h.rnd (List.nodup_dedup _)).2 hmem
  refine ⟨h.rnd, hperm, h.rlen, ?_⟩
  intro e he
  rcases h.order e he with h1 | ⟨hfr, hto⟩ | h1
  · cases h1
  · exact absurd ((hmem e.«to»).2 (List.mem_dedup.2 (to_mem_nodesOf he))) hto
  · exact h1

theorem indexOf_before {l : List Nat} {a b : Nat} (hnd : l.Nodup) (h : Before l a b) :
    l.indexOf a < l.indexOf b := by
  obtain ⟨l1, l2, l3, rfl⟩ := h
  have hshape : (l1 ++ a :: l2) ++ b :: l3 = l1 ++ (a :: (l2 ++ b :: l3)) := by simp
  rw [hshape] at hnd ⊢
  clear hshape
  induction l1 with
  | nil =>
    rw [List.nil_append] at hnd ⊢
    obtain ⟨hna, _⟩ := List.nodup_cons.1 hnd
    have hab : a ≠ b := by
      intro hc
      subst hc
      exact hna (by simp)
    have h1 : (a :: (l2 ++ b :: l3)).indexOf a = 0 := by simp [List.indexOf_cons]
    have h2 : (a :: (l2 ++ b :: l3)).indexOf b = ((l2 ++ b :: l3).indexOf b) + 1 := by
      simp [List.indexOf_cons, hab]
    omega
  | cons hh t ih =>
    rw [List.cons_append] at hnd ⊢
    obtain ⟨hna, hnd2⟩ := List.nodup_cons.1 hnd
    have hha : hh ≠ a := by
      intro hc
      subst hc
      exact hna (by simp)
    have hhb : hh ≠ b := by
      intro hc
      subst hc
      exact hna (by simp)
    have h1 : (hh :: (t ++ (a :: (l2 ++ b :: l3)))).indexOf a =
        ((t ++ (a :: (l2 ++ b :: l3))).indexOf a) + 1 := by
      simp [List.indexOf_cons, hha]
    have h2 : (hh :: (t ++ (a :: (l2 ++ b :: l3)))).indexOf b =
        ((t ++ (a :: (l2 ++ b :: l3))).indexOf b) + 1 := by
      simp [List.indexOf_cons, hhb]
    have h3 := ih hnd2
    rw [h1, h2]
    exact Nat.succ_lt_succ h3

theorem nodesOf_perm {l l' : List Edge} (h : l.Perm l') : (nodesOf l).Perm (nodesOf l') :=
  h.flatMap_right _

theorem hasCycle_perm {l l' : List Edge} (h : l.Perm l') (hc : HasCycle l) : HasCycle l' :=
  hasCycle_sub (fun _ he => h.mem_iff.1 he) hc

theorem into_topo_sorted_err_of_hasCycle {C : Nat} (g : Graph C)
    (hlen : g.edges.length ≤ C) (hcyc : HasCycle g.edges) :
    into_topo_sorted g = some (Except.error Error.Cycle) ∨
    into_topo_sorted g = some (Except.error Error.OverCapacity) := by
  have hnn := into_topo_sorted_ne_none hlen
  have hnok := into_topo_sorted_not_ok_of_hasCycle hcyc hlen
  cases hres : into_topo_sorted g with
  | none => exact absurd hres hnn
  | some r =>
    cases r with
    | ok out => exact absurd hres (hnok out)
    | error err =>
      cases err with
      | Cycle => exact Or.inl rfl
      | OverCapacity => exact Or.inr rfl

set_option maxRecDepth 4000 in
theorem perm5_unique : ∀ s ∈ ([1, 2, 3, 4, 5] : List Nat).permutations',
    s.indexOf 1 < s.indexOf 2 → s.indexOf 2 < s.indexOf 3 → s.indexOf 3 < s.indexOf 4 →
    s.indexOf 4 < s.indexOf 5 → s = [1, 2, 3, 4, 5] := by decide


/-! ## Claim theorems -/

/-- C1: for every acyclic edge list whose edge count is at most `C` and whose
number of distinct node identifiers is at most `C`, `into_topo_sorted` returns
`Ok s` where `s` is a permutation of the distinct node identifiers appearing in
the edges (so its length equals their number), and for every edge
`(from, to)` of the input, `from` appears strictly before `to` in `s`. -/
theorem into_topo_sorted_valid_total {C : Nat} (g : Graph C)
    (h1 : g.edges.length ≤ C) (h2 : (nodesOf g.edges).dedup.length ≤ C)
    (h3 : ¬ HasCycle g.edges) :
    ∃ s, into_topo_sorted g = some (Except.ok s) ∧
      s.Perm (nodesOf g.edges).dedup ∧
      s.length = (nodesOf g.edges).dedup.length ∧
      ∀ e ∈ g.edges, Before s e.«from» e.«to» := by
  rcases into_topo_sorted_total h1 h2 with ⟨out, hout, hfin⟩ | ⟨_, hcyc⟩
  · obtain ⟨_, hperm, _, hbef⟩ := inv_final hfin
    exact ⟨out, hout, hperm, hperm.length_eq, hbef⟩
  · exact absurd hcyc h3

theorem into_topo_sorted_valid_total_witness :
    ∃ s, into_topo_sorted (C := 8) ⟨[⟨0, 1⟩, ⟨1, 2⟩]⟩ = some (Except.ok s) ∧
      s.Perm (nodesOf [⟨0, 1⟩, ⟨1, 2⟩]).dedup ∧
      s.length = (nodesOf [⟨0, 1⟩, ⟨1, 2⟩]).dedup.length ∧
      ∀ e ∈ ([⟨0, 1⟩, ⟨1, 2⟩] : List Edge), Before s e.«from» e.«to» :=
  into_topo_sorted_valid_total ⟨[⟨0, 1⟩, ⟨1, 2⟩]⟩ (by decide) (by decide)
    (fun hc => @into_topo_sorted_not_ok_of_hasCycle 8 ⟨[⟨0, 1⟩, ⟨1, 2⟩]⟩ hc
      (by decide) [0, 1, 2] rfl)

/-- C2 (amended): an edge list containing a cycle never sorts to `Ok`; the
result is `Err(Cycle)` or — when a capacity overflow strikes first —
`Err(OverCapacity)`. -/
theorem into_topo_sorted_cycle_amended {C : Nat} (g : Graph C)
    (hlen : g.edges.length ≤ C) (hcyc : HasCycle g.edges) :
    into_topo_sorted g = some (Except.error Error.Cycle) ∨
    into_topo_sorted g = some (Except.error Error.OverCapacity) :=
  into_topo_sorted_err_of_hasCycle g hlen hcyc

theorem into_topo_sorted_cycle_amended_witness :
    into_topo_sorted (C := 4) ⟨[⟨1, 2⟩, ⟨2, 1⟩]⟩ = some (Except.error Error.Cycle) ∨
    into_topo_sorted (C := 4) ⟨[⟨1, 2⟩, ⟨2, 1⟩]⟩ = some (Except.error Error.OverCapacity) :=
  into_topo_sorted_cycle_amended ⟨[⟨1, 2⟩, ⟨2, 1⟩]⟩ (by decide)
    ⟨[⟨1, 2⟩, ⟨2, 1⟩], by decide, by decide, rfl, ⟨1, 2⟩, ⟨2, 1⟩, rfl, rfl, rfl⟩

/-- C2 counterexample: `[(1,2),(3,4),(5,6),(7,7)]` contains the cycle
`[(7,7)]`, yet with capacity 4 `into_topo_sorted` returns `Err(OverCapacity)`,
not `Err(Cycle)` as the claim states. -/
theorem into_topo_sorted_cycle_counterexample :
    IsCycleChainIn [⟨1, 2⟩, ⟨3, 4⟩, ⟨5, 6⟩, ⟨7, 7⟩] [⟨7, 7⟩] ∧
    into_topo_sorted (C := 4) ⟨[⟨1, 2⟩, ⟨3, 4⟩, ⟨5, 6⟩, ⟨7, 7⟩]⟩ =
      some (Except.error Error.OverCapacity) ∧
    into_topo_sorted (C := 4) ⟨[⟨1, 2⟩, ⟨3, 4⟩, ⟨5, 6⟩, ⟨7, 7⟩]⟩ ≠
      some (Except.error Error.Cycle) :=
  ⟨⟨by decide, by decide, rfl, ⟨7, 7⟩, ⟨7, 7⟩, rfl, rfl, rfl⟩, rfl, by decide⟩

/-- C3 (amended): when the number of distinct node identifiers exceeds the
capacity `C`, `into_topo_sorted` never returns `Ok`; it returns
`Err(OverCapacity)` or — when the input also contains a cycle that is detected
first — `Err(Cycle)`. -/
theorem into_topo_sorted_overcap_amended {C : Nat} (g : Graph C)
    (hlen : g.edges.length ≤ C) (hD : C < (nodesOf g.edges).dedup.length) :
    into_topo_sorted g = some (Except.error Error.OverCapacity) ∨
    into_topo_sorted g = some (Except.error Error.Cycle) := by
  have hnn := into_topo_sorted_ne_none hlen
  cases hres : into_topo_sorted g with
  | none => exact absurd hres hnn
  | some r =>
    cases r with
    | ok out =>
      exfalso
      have hfin := into_topo_sorted_ok_inv hres
      obtain ⟨_, hperm, hle, _⟩ := inv_final hfin
      have := hperm.length_eq
      omega
    | error err =>
      cases err with
      | Cycle => exact Or.inr rfl
      | OverCapacity => exact Or.inl rfl

theorem into_topo_sorted_overcap_amended_witness :
    into_topo_sorted (C := 2) ⟨[⟨1, 2⟩, ⟨0, 1⟩]⟩ = some (Except.error Error.OverCapacity) ∨
    into_topo_sorted (C := 2) ⟨[⟨1, 2⟩, ⟨0, 1⟩]⟩ = some (Except.error Error.Cycle) :=
  into_topo_sorted_overcap_amended ⟨[⟨1, 2⟩, ⟨0, 1⟩]⟩ (by decide) (by decide)

/-- C3 counterexample: `[(1,1),(2,3)]` has 3 distinct nodes, which exceeds the
capacity 2, yet `into_topo_sorted` returns `Err(Cycle)`, not
`Err(OverCapacity)` as the claim states. -/
theorem into_topo_sorted_overcap_counterexample :
    (nodesOf [⟨1, 1⟩, ⟨2, 3⟩]).dedup.length = 3 ∧
    into_topo_sorted (C := 2) ⟨[⟨1, 1⟩, ⟨2, 3⟩]⟩ = some (Except.error Error.Cycle) ∧
    into_topo_sorted (C := 2) ⟨[⟨1, 1⟩, ⟨2, 3⟩]⟩ ≠ some (Except.error Error.OverCapacity) :=
  ⟨by decide, rfl, by decide⟩

/-- C4: `insert_edge` fails with `OverCapacity` exactly when the edge sequence
already holds `C` edges; on failure the graph is unchanged, and on success the
edge is appended at the end. -/
theorem insert_edge_capacity {C : Nat} (g : Graph C) (e : Edge)
    (hle : g.edges.length ≤ C) :
    ((insert_edge g e).1 = Except.error Error.OverCapacity ↔ g.edges.length = C) ∧
    ((insert_edge g e).1 = Except.error Error.OverCapacity → (insert_edge g e).2 = g) ∧
    (g.edges.length < C →
      (insert_edge g e).1 = Except.ok () ∧ (insert_edge g e).2.edges = g.edges ++ [e]) := by
  unfold insert_edge
  by_cases h : g.edges.length < C
  · rw [if_pos h]
    refine ⟨?_, ?_, ?_⟩
    · constructor
      · intro hc
        simp at hc
      · intro hc
        omega
    · intro hc
      simp at hc
    · intro _
      exact ⟨rfl, rfl⟩
  · rw [if_neg h]
    refine ⟨?_, ?_, ?_⟩
    · constructor
      · intro _
        omega
      · intro _
        rfl
    · intro _
      rfl
    · intro hc
      exact absurd hc h

theorem insert_edge_capacity_witness :
    ((insert_edge (C := 2) ⟨[⟨0, 1⟩, ⟨1, 2⟩]⟩ ⟨5, 5⟩).1 = Except.error Error.OverCapacity ↔
      ([⟨0, 1⟩, ⟨1, 2⟩] : List Edge).length = 2) ∧
    ((insert_edge (C := 2) ⟨[⟨0, 1⟩, ⟨1, 2⟩]⟩ ⟨5, 5⟩).1 = Except.error Error.OverCapacity →
      (insert_edge (C := 2) ⟨[⟨0, 1⟩, ⟨1, 2⟩]⟩ ⟨5, 5⟩).2 = ⟨[⟨0, 1⟩, ⟨1, 2⟩]⟩) ∧
    (([⟨0, 1⟩, ⟨1, 2⟩] : List Edge).length < 2 →
      (insert_edge (C := 2) ⟨[⟨0, 1⟩, ⟨1, 2⟩]⟩ ⟨5, 5⟩).1 = Except.ok () ∧
      (insert_edge (C := 2) ⟨[⟨0, 1⟩, ⟨1, 2⟩]⟩ ⟨5, 5⟩).2.edges =
        [⟨0, 1⟩, ⟨1, 2⟩] ++ [⟨5, 5⟩]) :=
  insert_edge_capacity ⟨[⟨0, 1⟩, ⟨1, 2⟩]⟩ ⟨5, 5⟩ (by decide)

/-- C5: the main Kahn loop terminates on every input: with fuel equal to the
loop measure `|starting set| + |remaining edges|` (each iteration pops one
starting node and re-inserts at most one node per retired edge, so this
measure strictly decreases), `topoLoop` always returns a result instead of
exhausting its fuel. -/
theorem topoLoop_terminates (C : Nat) (res s : List Nat) (edges : List Edge)
    (hlen : edges.length ≤ C) :
    ∃ r, topoLoop C (s.length + edges.length) res s edges = some r := by
  cases h : topoLoop C (s.length + edges.length) res s edges with
  | none => exact absurd h (topoLoop_ne_none _ _ _ _ hlen (le_refl _))
  | some r => exact ⟨r, rfl⟩

theorem topoLoop_terminates_witness :
    ∃ r, topoLoop 2 (([0] : List Nat).length + ([⟨0, 1⟩] : List Edge).length)
      [] [0] [⟨0, 1⟩] = some r :=
  topoLoop_terminates 2 [] [0] [⟨0, 1⟩] (by decide)

/-- C6: with capacity 32, the edges `[(1,2),(2,3),(3,4),(4,5),(3,5),(1,5)]` in
any insertion order sort to exactly `Ok([1,2,3,4,5])`; with the extra edge
`(5,1)`, any insertion order yields `Err(Cycle)`. -/
theorem into_topo_sorted_example :
    (∀ l : List Edge, l.Perm [⟨1, 2⟩, ⟨2, 3⟩, ⟨3, 4⟩, ⟨4, 5⟩, ⟨3, 5⟩, ⟨1, 5⟩] →
      into_topo_sorted (C := 32) ⟨l⟩ = some (Except.ok [1, 2, 3, 4, 5])) ∧
    (∀ l : List Edge, l.Perm [⟨1, 2⟩, ⟨2, 3⟩, ⟨3, 4⟩, ⟨4, 5⟩, ⟨3, 5⟩, ⟨1, 5⟩, ⟨5, 1⟩] →
      into_topo_sorted (C := 32) ⟨l⟩ = some (Except.error Error.Cycle)) := by
  constructor
  · intro l hperm
    have hlen : l.length ≤ 32 := by
      rw [hperm.length_eq]
      decide
    have hD : (nodesOf l).dedup.length ≤ 32 := by
      rw [((nodesOf_perm hperm).dedup).length_eq]
      decide
    have hnc : ¬ HasCycle l := by
      intro hc
      exact @into_topo_sorted_not_ok_of_hasCycle 32
        ⟨[⟨1, 2⟩, ⟨2, 3⟩, ⟨3, 4⟩, ⟨4, 5⟩, ⟨3, 5⟩, ⟨1, 5⟩]⟩ (hasCycle_perm hperm hc)
        (by decide) [1, 2, 3, 4, 5] rfl
    rcases into_topo_sorted_total (g := (⟨l⟩ : Graph 32)) hlen hD with
      ⟨out, hout, hfin⟩ | ⟨_, hcyc⟩
    · obtain ⟨hnd, hperm2, _, hbef⟩ := inv_final hfin
      have hmemperm : out ∈ ([1, 2, 3, 4, 5] : List Nat).permutations' := by
        refine List.mem_permutations'.2 (hperm2.trans ?_)
        refine ((nodesOf_perm hperm).dedup).trans ?_
        decide
      have hb12 := hbef ⟨1, 2⟩ (hperm.mem_iff.2 (by decide))
      have hb23 := hbef ⟨2, 3⟩ (hperm.mem_iff.2 (by decide))
      have hb34 := hbef ⟨3, 4⟩ (hperm.mem_iff.2 (by decide))
      have hb45 := hbef ⟨4, 5⟩ (hperm.mem_iff.2 (by decide))
      have heq := perm5_unique out hmemperm (indexOf_before hnd hb12)
        (indexOf_before hnd hb23) (indexOf_before hnd hb34) (indexOf_before hnd hb45)
      rw [heq] at hout
      exact hout
    · exact absurd hcyc hnc
  · intro l hperm
    have hlen : l.length ≤ 32 := by
      rw [hperm.length_eq]
      decide
    have hD : (nodesOf l).dedup.length ≤ 32 := by
      rw [((nodesOf_perm hperm).dedup).length_eq]
      decide
    have hcyc : HasCycle l := by
      refine ⟨[⟨5, 1⟩, ⟨1, 5⟩], by decide, ?_, rfl, ⟨5, 1⟩, ⟨1, 5⟩, rfl, rfl, rfl⟩
      intro e he
      rcases List.mem_cons.1 he with rfl | he2
      · exact hperm.mem_iff.2 (by decide)
      · rcases List.mem_cons.1 he2 with rfl | he3
        · exact hperm.mem_iff.2 (by decide)
        · cases he3
    rcases into_topo_sorted_total (g := (⟨l⟩ : Graph 32)) hlen hD with
      ⟨out, hout, _⟩ | ⟨herr, _⟩
    · exact absurd hout (@into_topo_sorted_not_ok_of_hasCycle 32 ⟨l⟩ hcyc hlen out)
    · exact herr

theorem into_topo_sorted_example_witness :
    into_topo_sorted (C := 32) ⟨[⟨1, 2⟩, ⟨2, 3⟩, ⟨3, 4⟩, ⟨4, 5⟩, ⟨3, 5⟩, ⟨1, 5⟩]⟩ =
      some (Except.ok [1, 2, 3, 4, 5]) ∧
    into_topo_sorted (C := 32) ⟨[⟨1, 2⟩, ⟨2, 3⟩, ⟨3, 4⟩, ⟨4, 5⟩, ⟨3, 5⟩, ⟨1, 5⟩, ⟨5, 1⟩]⟩ =
      some (Except.error Error.Cycle) :=
  ⟨into_topo_sorted_example.1 _ (List.Perm.refl _),
    into_topo_sorted_example.2 _ (List.Perm.refl _)⟩

/-- C7: `insert_edge` performs no duplicate detection: whenever fewer than `C`
edges are stored it succeeds for every edge — also one equal to an edge
already present — and stores it as an additional element at the end. -/
theorem insert_edge_appends {C : Nat} (g : Graph C) (e : Edge)
    (h : g.edges.length < C) :
    (insert_edge g e).1 = Except.ok () ∧ (insert_edge g e).2.edges = g.edges ++ [e] := by
  unfold insert_edge
  rw [if_pos h]
  exact ⟨rfl, rfl⟩

theorem insert_edge_appends_witness :
    (insert_edge (C := 2) ⟨[⟨1, 2⟩]⟩ ⟨1, 2⟩).1 = Except.ok () ∧
    (insert_edge (C := 2) ⟨[⟨1, 2⟩]⟩ ⟨1, 2⟩).2.edges = [⟨1, 2⟩] ++ [⟨1, 2⟩] :=
  insert_edge_appends ⟨[⟨1, 2⟩]⟩ ⟨1, 2⟩ (by decide)

/-- C8: `into_topo_sorted` never panics: the run never hits a modelled panic
(`none`), `resize_default EDGES` on the fresh flag buffer always succeeds, and
the flag-buffer iterator consumed by `retain` is never exhausted — retaining
with the filled flag buffer succeeds and equals dropping the edges that leave
the popped node.  (The `unwrap` after `first()` is guarded by the loop's
non-emptiness check, which the embedding's `match` on the set makes total.) -/
theorem into_topo_sorted_no_panic {C : Nat} (g : Graph C) (hlen : g.edges.length ≤ C) :
    into_topo_sorted g ≠ none ∧
    resize_default C C = some (List.replicate C false) ∧
    ∀ node, retainUnflagged g.edges (fillFlags node g.edges 0 (List.replicate C false)) =
      some (g.edges.filter (fun e => !decide (e.«from» = node))) :=
  ⟨into_topo_sorted_ne_none hlen, by simp [resize_default],
    fun _ => retain_eq_filter hlen⟩

theorem into_topo_sorted_no_panic_witness :
    into_topo_sorted (C := 4) ⟨[⟨0, 1⟩]⟩ ≠ none ∧
    retainUnflagged [⟨0, 1⟩] (fillFlags 0 [⟨0, 1⟩] 0 (List.replicate 4 false)) =
      some (List.filter (fun e => !decide (e.«from» = 0)) [⟨0, 1⟩]) := by
  have h := into_topo_sorted_no_panic (C := 4) ⟨[⟨0, 1⟩]⟩ (by decide)
  exact ⟨h.1, h.2.2 0⟩

/-- C9: for every input edge list (acyclic or not), whenever `into_topo_sorted`
returns `Ok s`, the sequence `s` contains each node identifier at most once. -/
theorem into_topo_sorted_ok_nodup {C : Nat} (g : Graph C) (out : List Nat)
    (h : into_topo_sorted g = some (Except.ok out)) : out.Nodup :=
  (into_topo_sorted_ok_inv h).rnd

theorem into_topo_sorted_ok_nodup_witness : ([0, 1] : List Nat).Nodup :=
  into_topo_sorted_ok_nodup (C := 4) ⟨[⟨0, 1⟩]⟩ [0, 1] rfl

/-- C10: a graph containing a self-loop (an edge with `from = to`) never sorts
to `Ok`: the result is `Err(Cycle)` or `Err(OverCapacity)`. -/
theorem into_topo_sorted_self_loop {C : Nat} (g : Graph C) (e : Edge)
    (he : e ∈ g.edges) (hself : e.«from» = e.«to») (hlen : g.edges.length ≤ C) :
    into_topo_sorted g = some (Except.error Error.Cycle) ∨
    into_topo_sorted g = some (Except.error Error.OverCapacity) := by
  have hcyc : HasCycle g.edges :=
    ⟨[e], by simp, by simpa using he, rfl, e, e, rfl, rfl, hself.symm⟩
  exact into_topo_sorted_err_of_hasCycle g hlen hcyc

theorem into_topo_sorted_self_loop_witness :
    into_topo_sorted (C := 2) ⟨[⟨1, 1⟩]⟩ = some (Except.error Error.Cycle) ∨
    into_topo_sorted (C := 2) ⟨[⟨1, 1⟩]⟩ = some (Except.error Error.OverCapacity) :=
  into_topo_sorted_self_loop ⟨[⟨1, 1⟩]⟩ ⟨1, 1⟩ (by decide) rfl (by decide)


end HeaplessTopo
